import Mathlib

/-!
Verification of the `igush-rs` container (an IgushArray implementation).

The development shallowly embeds `src/util.rs` and `src/lib.rs`:
`Vec<T>` becomes `List T`, `usize` becomes `Nat` (with `Int` where signed
arithmetic occurs in the source), and fallible operations return `Option`.
Panics (failed `assert!`, out-of-bounds indexing) are modelled by `Option`
results or, where the source's own preconditions make them unreachable,
by benign defaults noted at each site.
-/

set_option linter.unusedVariables false

namespace util

/-- Model of `util::div_rem`: simultaneous truncated integer division and modulus. -/
def div_rem (dividend divisor : Nat) : Nat × Nat :=
  (dividend / divisor, dividend % divisor)

/-- Model of `util::wrap_add`: wrap around at end of row.  The source computes on
`usize`; the subtraction `(split + length) - other_abs` underflows (panics)
when `other_abs > split + length`.  We compute the value over `Int`, so a
negative result corresponds exactly to the source's underflow panic. -/
def wrap_add (length split : Nat) (other : Int) : Int :=
  let other_abs : Nat := other.natAbs
  if other < 0 then
    if split < other_abs then ((split : Int) + (length : Int)) - (other_abs : Int)
    else (split : Int) - (other_abs : Int)
  else (((split + other_abs) % length : Nat) : Int)

/-- Model of `slice::rotate_left(mid)`: the element at index `mid` moves to the front.
(The source panics when `mid > len`; every call site below satisfies
`mid ≤ len`.) -/
def rotate_left {α : Type _} (l : List α) (mid : Nat) : List α :=
  l.drop mid ++ l.take mid

/-- Model of `slice::rotate_right(k)`: the element at index `len - k` moves to the front. -/
def rotate_right {α : Type _} (l : List α) (k : Nat) : List α :=
  l.drop (l.length - k) ++ l.take (l.length - k)

/-- Model of `util::make_contiguous`: re-order the slice to make this row contiguous,
rotating by whichever of head/tail is smaller.  (The source's
`slice.len() - split` underflows when `split > slice.len()`; `Nat`
subtraction truncates to `0` there, in which case the function is the
identity while the source would panic — the container's own calls keep
`split` within range, which the invariant proofs below establish.) -/
def make_contiguous {α : Type _} (slice : List α) (split : Nat) : List α :=
  let head_len := split
  let tail_len := slice.length - split
  if tail_len ≤ head_len then rotate_right slice tail_len
  else rotate_left slice head_len

end util

/-- Model of `Vec::insert(i, x)`: shift everything from `i` rightwards. -/
def vecInsert {α : Type _} (l : List α) (i : Nat) (x : α) : List α :=
  l.take i ++ x :: l.drop i

/-- Model of `Vec::remove(i)`: returns the removed element and the shortened vector;
`none` models the source's out-of-bounds panic. -/
def vecRemove {α : Type _} (l : List α) (i : Nat) : Option (α × List α) :=
  match l[i]? with
  | none => none
  | some x => some (x, l.take i ++ l.drop (i + 1))

/-- Model of `Vec::swap` / `slice::swap` of two in-range positions; out-of-range
leaves the list unchanged (the source panics, and every use below is
guarded by in-range assertions). -/
def vecSwap {α : Type _} (l : List α) (i j : Nat) : List α :=
  match l[i]?, l[j]? with
  | some x, some y => (l.set i y).set j x
  | _, _ => l

/-- Read of the sub-slice `l[start..stop]`. -/
def subSlice {α : Type _} (l : List α) (start stop : Nat) : List α :=
  (l.drop start).take (stop - start)

/-- Write-back of a mutated sub-slice: the in-place mutation of
`l[start..stop]` into `row`. -/
def spliceRow {α : Type _} (l : List α) (start stop : Nat) (row : List α) : List α :=
  l.take start ++ row ++ l.drop stop

/-- Model of `row[i..=j].rotate_left(1)` inside a row slice. -/
def rotateRangeLeft {α : Type _} (l : List α) (i j : Nat) : List α :=
  spliceRow l i (j + 1) (util.rotate_left (subSlice l i (j + 1)) 1)

/-- Model of `row[i..=j].rotate_right(1)` inside a row slice. -/
def rotateRangeRight {α : Type _} (l : List α) (i j : Nat) : List α :=
  spliceRow l i (j + 1) (util.rotate_right (subSlice l i (j + 1)) 1)

/-- Model of `DEFAULT_WIDTH` from `lib.rs`. -/
def DEFAULT_WIDTH : Nat := 32

/-- The `Igush` struct: backing storage, per-DEQ split positions, DEQ width. -/
structure Igush (T : Type) where
  backing : List T
  splits : List Nat
  row_width : Nat
deriving DecidableEq

namespace Igush

variable {T : Type}

/-- Model of `Igush::new`.  The source asserts `row_width > 0`; theorems about
containers built from `new` carry that hypothesis. -/
def new (row_width : Nat) : Igush T :=
  ⟨[], [0], row_width⟩

/-- Model of `Igush::len`. -/
def len (a : Igush T) : Nat := a.backing.length

/-- Model of `Igush::back_row`: first non-full row index. -/
def back_row (a : Igush T) : Nat := a.len / a.row_width

/-- Model of `Igush::last_row`: last non-empty row index. -/
def last_row (a : Igush T) : Option Nat :=
  if a.len = 0 then none
  else
    let qr := util.div_rem a.len a.row_width
    if qr.2 = 0 then some (qr.1 - 1) else some qr.1

/-- Model of `Igush::real_index`: the physical index in `backing` of a logical index.
The source indexes `self.splits[target_row]` (panics out of range); under
the container invariant the access is in range, and `getD _ 0` agrees. -/
def real_index (a : Igush T) (index : Nat) : Nat :=
  let qr := util.div_rem index a.row_width
  qr.1 * a.row_width + (util.wrap_add a.row_width (a.splits.getD qr.1 0) (qr.2 : Int)).toNat

/-- Model of `Igush::get`. -/
def get (a : Igush T) (index : Nat) : Option T :=
  if a.len ≤ index then none
  else a.backing[a.real_index index]?

/-- The two `while` loops of `Igush::correct_splits`: push zero splits while
too short, pop trailing splits while too long.  (The source's
`debug_assert_eq!` on each popped entry is a debug check, not behaviour.) -/
def resize_splits (sp : List Nat) (rows : Nat) : List Nat :=
  if sp.length ≤ rows then sp ++ List.replicate (rows - sp.length) 0
  else sp.take rows

/-- Model of `Igush::correct_splits`: grow/shrink `splits` to the row count, then make
the last row contiguous. -/
def correct_splits (a : Igush T) : Igush T :=
  let rows := a.len / a.row_width + 1
  let splits := resize_splits a.splits rows
  let last := splits.length - 1
  let split := splits.getD last 0
  if split ≠ 0 then
    let start := last * a.row_width
    let stop := min (start + a.row_width) a.len
    ⟨spliceRow a.backing start stop
        (util.make_contiguous (subSlice a.backing start stop) split),
      splits.set last 0, a.row_width⟩
  else ⟨a.backing, splits, a.row_width⟩

/-- Model of `Igush::push_back`: push onto the backing `Vec`, then fix bookkeeping. -/
def push_back (a : Igush T) (element : T) : Igush T :=
  correct_splits ⟨a.backing ++ [element], a.splits, a.row_width⟩

/-- Model of `Igush::pop_back`: pop the backing `Vec`, then fix bookkeeping. -/
def pop_back (a : Igush T) : Option T × Igush T :=
  (a.backing.getLast?, correct_splits ⟨a.backing.dropLast, a.splits, a.row_width⟩)

/-- One iteration of the forward row walk shared by `push_front` and
`insert`: swap the carried value with the row's last logical element and
retreat the row's split. -/
def front_step (W : Nat) (s : List T × List Nat × T) (row : Nat) : List T × List Nat × T :=
  let backing := s.1
  let splits := s.2.1
  let temp := s.2.2
  let split := splits.getD row 0
  let last := row * W + (util.wrap_add W split (-1)).toNat
  (backing.set last temp, splits.set row (util.wrap_add W split (-1)).toNat,
    backing.getD last temp)

/-- Model of `Igush::push_front`. -/
def push_front (a : Igush T) (element : T) : Igush T :=
  let s := (List.range a.back_row).foldl (front_step a.row_width)
    (a.backing, a.splits, element)
  correct_splits ⟨vecInsert s.1 (a.back_row * a.row_width) s.2.2, s.2.1, a.row_width⟩

/-- One iteration of the backward row walk shared by `pop_front` and
`remove`: swap the carried value with the row's first logical element and
advance the row's split. -/
def back_step (W : Nat) (s : List T × List Nat × T) (row : Nat) : List T × List Nat × T :=
  let backing := s.1
  let splits := s.2.1
  let temp := s.2.2
  let split := splits.getD row 0
  let start := row * W + split
  (backing.set start temp, splits.set row (util.wrap_add W split 1).toNat,
    backing.getD start temp)

/-- Model of `Igush::pop_front`.  The inner `none` branch is unreachable: whenever
`last_row` is `some`, the removal index is in range (the source would
panic otherwise). -/
def pop_front (a : Igush T) : Option T × Igush T :=
  match a.last_row with
  | none => (none, a)
  | some lr =>
    match vecRemove a.backing (lr * a.row_width) with
    | none => (none, a)
    | some td =>
      let s := (List.range lr).reverse.foldl (back_step a.row_width)
        (td.2, a.splits, td.1)
      (some s.2.2, correct_splits ⟨s.1, s.2.1, a.row_width⟩)

/-- Model of `Igush::insert`; `none` models the `assert!(index <= self.len())` panic. -/
def insert (a : Igush T) (index : Nat) (element : T) : Option (Igush T) :=
  if a.len < index then none
  else some (
    let qr := util.div_rem index a.row_width
    let target_row := qr.1
    let target_col := qr.2
    if target_row = a.back_row then
      correct_splits ⟨vecInsert a.backing index element, a.splits, a.row_width⟩
    else
      let split := a.splits.getD target_row 0
      let start := target_row * a.row_width
      let row := subSlice a.backing start (start + a.row_width)
      let last := (util.wrap_add a.row_width split (-1)).toNat
      let temp1 := row.getD last element
      let row1 := row.set last element
      let before := last
      let after := (util.wrap_add a.row_width split (target_col : Int)).toNat
      let rs :=
        if before ≤ after then
          (rotateRangeLeft row1 before after,
            a.splits.set target_row (util.wrap_add a.row_width split (-1)).toNat)
        else (rotateRangeRight row1 after before, a.splits)
      let b1 := spliceRow a.backing start (start + a.row_width) rs.1
      let s2 := (List.range' (target_row + 1) (a.back_row - (target_row + 1))).foldl
        (front_step a.row_width) (b1, rs.2, temp1)
      correct_splits ⟨vecInsert s2.1 (a.back_row * a.row_width) s2.2.2, s2.2.1, a.row_width⟩)

/-- Model of `Igush::remove`; returns `none` (with the container untouched) for an
out-of-range index.  The inner `none` branches are unreachable in-range
accesses, as in `pop_front`. -/
def remove (a : Igush T) (index : Nat) : Option T × Igush T :=
  if a.len ≤ index then (none, a)
  else
    match a.last_row with
    | none => (none, a)
    | some lr =>
      let qr := util.div_rem index a.row_width
      let target_row := qr.1
      let target_col := qr.2
      if target_row = lr then
        match vecRemove a.backing index with
        | none => (none, a)
        | some ed => (some ed.1, correct_splits ⟨ed.2, a.splits, a.row_width⟩)
      else
        match vecRemove a.backing (lr * a.row_width) with
        | none => (none, a)
        | some td =>
          let s1 := (List.range' (target_row + 1) (lr - (target_row + 1))).reverse.foldl
            (back_step a.row_width) (td.2, a.splits, td.1)
          let split := s1.2.1.getD target_row 0
          let start := target_row * a.row_width
          let row := subSlice s1.1 start (start + a.row_width)
          let col := (util.wrap_add a.row_width split (target_col : Int)).toNat
          let out := row.getD col s1.2.2
          let row1 := row.set col s1.2.2
          let before := col
          let after := split
          let rs :=
            if before < after then (rotateRangeLeft row1 before after, s1.2.1)
            else (rotateRangeRight row1 after before,
              s1.2.1.set target_row (util.wrap_add a.row_width split 1).toNat)
          (some out,
            correct_splits ⟨spliceRow s1.1 start (start + a.row_width) rs.1, rs.2, a.row_width⟩)

/-- Model of `Igush::truncate`: pop from the back until the length is reached. -/
def truncate (a : Igush T) (l : Nat) : Igush T :=
  (List.range (a.len - l)).foldl (fun s _ => (s.pop_back).2) a

/-- Model of `Igush::clear`. -/
def clear (a : Igush T) : Igush T :=
  ⟨[], [0], a.row_width⟩

/-- Model of `Igush::swap`; `none` models the two `assert!` panics. -/
def swap (a : Igush T) (i j : Nat) : Option (Igush T) :=
  if i < a.len ∧ j < a.len then
    some ⟨vecSwap a.backing (a.real_index i) (a.real_index j), a.splits, a.row_width⟩
  else none

/-- Model of `Igush::front`. -/
def front (a : Igush T) : Option T := a.get 0

/-- Model of `Igush::back`: reads the physically last backing element. -/
def back (a : Igush T) : Option T := a.backing.getLast?

/-- One row of the loop body of `Igush::make_contiguous`. -/
def lin_step (W : Nat) (splits : List Nat) (b : List T) (i : Nat) : List T :=
  let start := i * W
  let stop := min (start + W) b.length
  let split := splits.getD i 0
  if 0 < split then
    spliceRow b start stop (util.make_contiguous (subSlice b start stop) split)
  else b

/-- Model of `Igush::make_contiguous`: rotate every row with a non-zero split.  Note
that the source does not reset the splits afterwards. -/
def make_contiguous (a : Igush T) : Igush T :=
  match a.last_row with
  | none => a
  | some lr =>
    ⟨(List.range (lr + 1)).foldl (lin_step a.row_width a.splits) a.backing,
      a.splits, a.row_width⟩

/-- Model of `From<Vec<T>> for Igush<T>`. -/
def fromVec (other : List T) : Igush T :=
  let row_width := max other.length.sqrt DEFAULT_WIDTH
  ⟨other, List.replicate (other.length / row_width + 1) 0, row_width⟩

/-- Model of `Igush::split_off`; `none` models the `assert!(at <= len)` panic. -/
def split_off (a : Igush T) (at_ : Nat) : Option (Igush T × Igush T) :=
  if a.len < at_ then none
  else
    let b := a.make_contiguous
    let other := b.backing.drop at_
    some (correct_splits ⟨b.backing.take at_, b.splits, b.row_width⟩, fromVec other)

/-- Model of `Into<Vec<T>> for Igush<T>`. -/
def intoVec (a : Igush T) : List T :=
  a.make_contiguous.backing

/-- The logical sequence held by the container: the indexed reads in order.
This is the abstraction that claims about the element at a logical index
refer to. -/
def logicalSeq (a : Igush T) : List T :=
  (List.range a.len).filterMap a.get

/-- The container invariant (spec §3): positive width, one split per row
with row count `⌊len/W⌋ + 1`, every split in `[0, W)`, and the last
(conceptual) row contiguous. -/
def Invariant (a : Igush T) : Prop :=
  0 < a.row_width ∧
    a.splits.length = a.len / a.row_width + 1 ∧
    (∀ s ∈ a.splits, s < a.row_width) ∧
    a.splits.getLast? = some 0

instance (a : Igush T) : Decidable a.Invariant := by
  unfold Invariant
  exact inferInstance

/-- Containers built from `new` by pushes and (in-range) inserts. -/
inductive Built (W : Nat) : Igush T → Prop where
  | base : 0 < W → Built W (new W)
  | push_back_built {a : Igush T} (x : T) : Built W a → Built W (a.push_back x)
  | push_front_built {a : Igush T} (x : T) : Built W a → Built W (a.push_front x)
  | insert_built {a b : Igush T} (i : Nat) (x : T) :
      Built W a → a.insert i x = some b → Built W b

end Igush

/-- A concrete reachable state with row width 2, reached by
`push_back 0; push_back 1; push_front 2; pop_back`.  Its backing is
`[0, 2]` with splits `[1, 0]`: the (full) last non-empty row is not
contiguous even though the invariant holds, so the physically last
backing element is not the logically last element. -/
def bugTrace : Igush Nat :=
  (Igush.pop_back ((((Igush.new 2).push_back 0).push_back 1).push_front 2)).2

/-! ### Arithmetic facts about `util.wrap_add` -/

theorem wrap_add_ofNat (W sp c : Nat) :
    util.wrap_add W sp (c : Int) = (((sp + c) % W : Nat) : Int) := by
  simp only [util.wrap_add]
  rw [if_neg (by omega), Int.natAbs_ofNat]

theorem wrap_add_ofNat_toNat (W sp c : Nat) :
    (util.wrap_add W sp (c : Int)).toNat = (sp + c) % W := by
  rw [wrap_add_ofNat]
  rfl

theorem wrap_add_one_toNat (W sp : Nat) :
    (util.wrap_add W sp 1).toNat = (sp + 1) % W := by
  have h : (1 : Int) = ((1 : Nat) : Int) := rfl
  rw [h, wrap_add_ofNat_toNat]

theorem wrap_add_neg_one_toNat (W sp : Nat) (hW : 0 < W) :
    (util.wrap_add W sp (-1)).toNat = if sp = 0 then W - 1 else sp - 1 := by
  simp only [util.wrap_add]
  rw [if_pos (by omega)]
  have habs : ((-1 : Int)).natAbs = 1 := rfl
  rw [habs]
  rcases Nat.eq_zero_or_pos sp with h | h
  · subst h
    rw [if_pos (by omega), if_pos rfl]
    omega
  · rw [if_neg (by omega), if_neg (by omega)]
    omega

theorem wrap_neg_one_lt (W sp : Nat) (hW : 0 < W) (hsp : sp < W) :
    (util.wrap_add W sp (-1)).toNat < W := by
  rw [wrap_add_neg_one_toNat W sp hW]
  split <;> omega

theorem wrap_one_lt (W sp : Nat) (hW : 0 < W) :
    (util.wrap_add W sp 1).toNat < W := by
  rw [wrap_add_one_toNat]
  exact Nat.mod_lt _ hW

/-! ### List support lemmas -/

theorem length_rotate_left {α : Type _} (l : List α) (m : Nat) :
    (util.rotate_left l m).length = l.length := by
  simp only [util.rotate_left, List.length_append, List.length_drop, List.length_take]
  omega

theorem length_rotate_right {α : Type _} (l : List α) (k : Nat) :
    (util.rotate_right l k).length = l.length := by
  simp only [util.rotate_right, List.length_append, List.length_drop, List.length_take]
  omega

theorem length_make_contiguous {α : Type _} (l : List α) (s : Nat) :
    (util.make_contiguous l s).length = l.length := by
  simp only [util.make_contiguous]
  split
  · exact length_rotate_right l _
  · exact length_rotate_left l _

theorem subSlice_length {α : Type _} (l : List α) (s e : Nat) :
    (subSlice l s e).length = min (e - s) (l.length - s) := by
  simp [subSlice]

theorem subSlice_getElem? {α : Type _} (l : List α) (s e j : Nat) :
    (subSlice l s e)[j]? = if j < e - s then l[s + j]? else none := by
  simp [subSlice, List.getElem?_take, List.getElem?_drop]

theorem spliceRow_length {α : Type _} (l : List α) (s e : Nat) (mid : List α)
    (hs : s ≤ e) (he : e ≤ l.length) (hm : mid.length = e - s) :
    (spliceRow l s e mid).length = l.length := by
  simp [spliceRow]
  omega

theorem spliceRow_getElem? {α : Type _} (l : List α) (s e : Nat) (mid : List α)
    (hs : s ≤ e) (he : e ≤ l.length) (hm : mid.length = e - s) (j : Nat) :
    (spliceRow l s e mid)[j]? =
      if j < s then l[j]? else if j < e then mid[j - s]? else l[j]? := by
  have hts : (l.take s).length = s := by simp; omega
  by_cases h1 : j < s
  · rw [if_pos h1, spliceRow, List.getElem?_append, List.getElem?_append]
    rw [if_pos (by rw [List.length_append, hts, hm]; omega),
      if_pos (by rw [hts]; omega), List.getElem?_take, if_pos h1]
  · rw [if_neg h1]
    by_cases h2 : j < e
    · rw [if_pos h2, spliceRow, List.getElem?_append,
        if_pos (by rw [List.length_append, hts, hm]; omega),
        List.getElem?_append, if_neg (by rw [hts]; omega), hts]
    · rw [if_neg h2, spliceRow, List.getElem?_append,
        if_neg (by rw [List.length_append, hts, hm]; omega), List.getElem?_drop]
      congr 1
      rw [List.length_append, hts, hm]
      omega

theorem rotate_left_getElem? {α : Type _} (l : List α) (m c : Nat)
    (hm : m ≤ l.length) (hc : c < l.length) :
    (util.rotate_left l m)[c]? = l[(m + c) % l.length]? := by
  have hlen : 0 < l.length := by omega
  rw [util.rotate_left, List.getElem?_append]
  by_cases h : c < l.length - m
  · rw [if_pos (by simp; omega), List.getElem?_drop]
    congr 1
    have : m + c < l.length := by omega
    rw [Nat.mod_eq_of_lt this]
  · rw [if_neg (by simp; omega), List.getElem?_take]
    have hle : l.length ≤ m + c := by omega
    have hmod : (m + c) % l.length = m + c - l.length := by
      rw [Nat.mod_eq_sub_mod hle, Nat.mod_eq_of_lt (by omega)]
    rw [if_pos (by simp; omega), hmod]
    congr 1
    simp
    omega

theorem make_contiguous_eq_rotate {α : Type _} (l : List α) (s : Nat) (hs : s ≤ l.length) :
    util.make_contiguous l s = util.rotate_left l s := by
  simp only [util.make_contiguous]
  split
  · simp only [util.rotate_right, util.rotate_left, Nat.sub_sub_self hs]
  · rfl

theorem make_contiguous_getElem? {α : Type _} (l : List α) (s c : Nat)
    (hs : s ≤ l.length) (hc : c < l.length) :
    (util.make_contiguous l s)[c]? = l[(s + c) % l.length]? := by
  rw [make_contiguous_eq_rotate l s hs]
  exact rotate_left_getElem? l s c hs hc

theorem vecInsert_at_length {α : Type _} (l : List α) (x : α) :
    vecInsert l l.length x = l ++ [x] := by
  simp [vecInsert]

theorem getD_lt_of_forall (l : List Nat) (W i : Nat) (hW : 0 < W)
    (h : ∀ s ∈ l, s < W) : l.getD i 0 < W := by
  rcases Nat.lt_or_ge i l.length with hi | hi
  · rw [List.getD_eq_getElem?_getD, List.getElem?_eq_getElem hi]
    exact h _ (List.getElem_mem hi)
  · rw [List.getD_eq_default _ _ hi]
    exact hW

/-! ### Index resolution under the invariant -/

theorem real_index_eq {T : Type} (a : Igush T) (i : Nat) :
    a.real_index i = (i / a.row_width) * a.row_width +
      (a.splits.getD (i / a.row_width) 0 + i % a.row_width) % a.row_width := by
  simp only [Igush.real_index, util.div_rem]
  rw [wrap_add_ofNat_toNat]

theorem invariant_getD_last {T : Type} (a : Igush T) (h : a.Invariant) :
    a.splits.getD (a.len / a.row_width) 0 = 0 := by
  obtain ⟨hW, hlen, hmem, hlast⟩ := h
  rw [List.getLast?_eq_getElem?] at hlast
  have hidx : a.splits.length - 1 = a.len / a.row_width := by
    rw [hlen, Nat.add_sub_cancel]
  rw [hidx] at hlast
  rw [List.getD_eq_getElem?_getD, hlast]
  rfl

theorem invariant_split_lt {T : Type} (a : Igush T) (h : a.Invariant) (r : Nat) :
    a.splits.getD r 0 < a.row_width :=
  getD_lt_of_forall _ _ _ h.1 h.2.2.1

theorem real_index_lt_len {T : Type} (a : Igush T) (h : a.Invariant) (i : Nat)
    (hi : i < a.len) : a.real_index i < a.len := by
  have hW := h.1
  rw [real_index_eq]
  have hc : (a.splits.getD (i / a.row_width) 0 + i % a.row_width) % a.row_width
      < a.row_width := Nat.mod_lt _ hW
  rcases Nat.lt_or_ge (i / a.row_width) (a.len / a.row_width) with hrow | hrow
  · have e1 : (i / a.row_width + 1) * a.row_width ≤ (a.len / a.row_width) * a.row_width :=
      Nat.mul_le_mul_right _ (by omega)
    have e2 : (a.len / a.row_width) * a.row_width ≤ a.len := Nat.div_mul_le_self _ _
    have e3 : (i / a.row_width + 1) * a.row_width
        = (i / a.row_width) * a.row_width + a.row_width := by ring
    omega
  · have hreq : i / a.row_width = a.len / a.row_width :=
      le_antisymm (Nat.div_le_div_right (le_of_lt hi)) hrow
    have hz : a.splits.getD (i / a.row_width) 0 = 0 := by
      rw [hreq]
      exact invariant_getD_last a h
    rw [hz, Nat.zero_add, Nat.mod_eq_of_lt (Nat.mod_lt _ hW)]
    have hdm : i / a.row_width * a.row_width + i % a.row_width = i :=
      Nat.div_add_mod' i a.row_width
    omega

theorem get_isSome {T : Type} (a : Igush T) (h : a.Invariant) (i : Nat)
    (hi : i < a.len) : ∃ x, a.get i = some x := by
  rw [Igush.get, if_neg (by omega)]
  have hlt := real_index_lt_len a h i hi
  exact ⟨_, List.getElem?_eq_getElem hlt⟩

theorem real_index_inj {T : Type} (a : Igush T) (h : a.Invariant) (i j : Nat)
    (hi : i < a.len) (hj : j < a.len)
    (he : a.real_index i = a.real_index j) : i = j := by
  have hW := h.1
  rw [real_index_eq, real_index_eq] at he
  have hci : (a.splits.getD (i / a.row_width) 0 + i % a.row_width) % a.row_width
      < a.row_width := Nat.mod_lt _ hW
  have hcj : (a.splits.getD (j / a.row_width) 0 + j % a.row_width) % a.row_width
      < a.row_width := Nat.mod_lt _ hW
  have key : ∀ r c : Nat, c < a.row_width → (r * a.row_width + c) / a.row_width = r := by
    intro r c hc
    rw [Nat.add_comm, Nat.add_mul_div_right _ _ hW, Nat.div_eq_of_lt hc, Nat.zero_add]
  have hrow : i / a.row_width = j / a.row_width := by
    calc i / a.row_width
        = ((i / a.row_width) * a.row_width +
            (a.splits.getD (i / a.row_width) 0 + i % a.row_width) % a.row_width)
              / a.row_width := (key _ _ hci).symm
      _ = ((j / a.row_width) * a.row_width +
            (a.splits.getD (j / a.row_width) 0 + j % a.row_width) % a.row_width)
              / a.row_width := by rw [he]
      _ = j / a.row_width := key _ _ hcj
  rw [hrow] at he
  have hcol := Nat.add_left_cancel he
  have hmod : i % a.row_width = j % a.row_width := by
    have h1 : a.splits.getD (j / a.row_width) 0 + i % a.row_width
        ≡ a.splits.getD (j / a.row_width) 0 + j % a.row_width [MOD a.row_width] := hcol
    have h2 := Nat.ModEq.add_left_cancel' _ h1
    have h3 : i % a.row_width % a.row_width = j % a.row_width % a.row_width := h2
    rw [Nat.mod_eq_of_lt (Nat.mod_lt _ hW), Nat.mod_eq_of_lt (Nat.mod_lt _ hW)] at h3
    exact h3
  have di : i / a.row_width * a.row_width + i % a.row_width = i :=
    Nat.div_add_mod' i a.row_width
  have dj : j / a.row_width * a.row_width + j % a.row_width = j :=
    Nat.div_add_mod' j a.row_width
  have hpw : i / a.row_width * a.row_width = j / a.row_width * a.row_width := by
    rw [hrow]
  omega

/-! ### `correct_splits` re-establishes the invariant -/

theorem invariant_mk {T : Type} (b : List T) (s : List Nat) (W : Nat) (hW : 0 < W)
    (h1 : s.length = b.length / W + 1) (h2 : ∀ x ∈ s, x < W)
    (h3 : s.getLast? = some 0) : (Igush.mk b s W).Invariant :=
  ⟨hW, h1, h2, h3⟩

theorem resize_splits_length (sp : List Nat) (rows : Nat) :
    (Igush.resize_splits sp rows).length = rows := by
  rw [Igush.resize_splits]
  split
  · rw [List.length_append, List.length_replicate]
    omega
  · rw [List.length_take]
    omega

theorem resize_splits_mem (sp : List Nat) (rows W : Nat) (hW : 0 < W)
    (h : ∀ s ∈ sp, s < W) : ∀ s ∈ Igush.resize_splits sp rows, s < W := by
  rw [Igush.resize_splits]
  split
  · intro s hs
    rcases List.mem_append.1 hs with h1 | h2
    · exact h _ h1
    · have := List.eq_of_mem_replicate h2
      omega
  · intro s hs
    exact h _ (List.mem_of_mem_take hs)

theorem correct_splits_inv {T : Type} (a : Igush T) (hW : 0 < a.row_width)
    (hs : ∀ s ∈ a.splits, s < a.row_width) : (a.correct_splits).Invariant := by
  have hlen1 := resize_splits_length a.splits (a.len / a.row_width + 1)
  have hmem1 := resize_splits_mem a.splits (a.len / a.row_width + 1) a.row_width hW hs
  have hpos : 0 < (Igush.resize_splits a.splits (a.len / a.row_width + 1)).length := by
    rw [hlen1]
    exact Nat.succ_pos _
  unfold Igush.correct_splits
  dsimp only
  split
  case isTrue hne =>
    have hlast_idx : (Igush.resize_splits a.splits (a.len / a.row_width + 1)).length - 1
        = a.len / a.row_width := by
      rw [hlen1, Nat.add_sub_cancel]
    have hstart : ((Igush.resize_splits a.splits (a.len / a.row_width + 1)).length - 1)
        * a.row_width ≤ a.len := by
      rw [hlast_idx]
      exact Nat.div_mul_le_self _ _
    have hstop1 : ((Igush.resize_splits a.splits (a.len / a.row_width + 1)).length - 1)
          * a.row_width
        ≤ min (((Igush.resize_splits a.splits (a.len / a.row_width + 1)).length - 1)
          * a.row_width + a.row_width) a.len :=
      le_min (Nat.le_add_right _ _) hstart
    have hstop2 : min (((Igush.resize_splits a.splits (a.len / a.row_width + 1)).length - 1)
          * a.row_width + a.row_width) a.len ≤ a.len := min_le_right _ _
    have hmid : (util.make_contiguous
        (subSlice a.backing
          (((Igush.resize_splits a.splits (a.len / a.row_width + 1)).length - 1) * a.row_width)
          (min (((Igush.resize_splits a.splits (a.len / a.row_width + 1)).length - 1)
            * a.row_width + a.row_width) a.len))
        ((Igush.resize_splits a.splits (a.len / a.row_width + 1)).getD
          ((Igush.resize_splits a.splits (a.len / a.row_width + 1)).length - 1) 0)).length
        = min (((Igush.resize_splits a.splits (a.len / a.row_width + 1)).length - 1)
            * a.row_width + a.row_width) a.len
          - ((Igush.resize_splits a.splits (a.len / a.row_width + 1)).length - 1)
            * a.row_width := by
      rw [length_make_contiguous, subSlice_length]
      have hdef : a.len = a.backing.length := rfl
      omega
    have hblen := spliceRow_length a.backing _ _ _ hstop1 hstop2 hmid
    apply invariant_mk _ _ _ hW
    · rw [List.length_set, hblen, hlen1]
      rfl
    · intro x hx
      rcases List.mem_or_eq_of_mem_set hx with h1 | h2
      · exact hmem1 _ h1
      · omega
    · rw [List.getLast?_eq_getElem?, List.length_set, List.getElem?_set,
        if_pos rfl, if_pos (by omega)]
  case isFalse hne =>
    have h0 : (Igush.resize_splits a.splits (a.len / a.row_width + 1)).getD
        ((Igush.resize_splits a.splits (a.len / a.row_width + 1)).length - 1) 0 = 0 :=
      not_not.1 hne
    apply invariant_mk _ _ _ hW
    · rw [hlen1]
      rfl
    · exact hmem1
    · rw [List.getLast?_eq_getElem?]
      rcases he : (Igush.resize_splits a.splits
          (a.len / a.row_width + 1))[(Igush.resize_splits a.splits
            (a.len / a.row_width + 1)).length - 1]? with _ | v
      · rw [List.getElem?_eq_getElem (by omega)] at he
        exact absurd he (by simp)
      · rw [List.getD_eq_getElem?_getD, he] at h0
        simp only [Option.getD_some] at h0
        rw [h0]

/-! ### Every mutating operation preserves the invariant -/

theorem front_fold_mem {T : Type} (W : Nat) (hW : 0 < W) (rs : List Nat) :
    ∀ p : List T × List Nat × T, (∀ x ∈ p.2.1, x < W) →
      ∀ x ∈ (rs.foldl (Igush.front_step W) p).2.1, x < W := by
  induction rs with
  | nil => intro p h; exact h
  | cons r rs ih =>
    intro p h
    rw [List.foldl_cons]
    apply ih
    intro x hx
    simp only [Igush.front_step] at hx
    rcases List.mem_or_eq_of_mem_set hx with h1 | h2
    · exact h _ h1
    · subst h2
      exact wrap_neg_one_lt _ _ hW (getD_lt_of_forall _ _ _ hW h)

theorem back_fold_mem {T : Type} (W : Nat) (hW : 0 < W) (rs : List Nat) :
    ∀ p : List T × List Nat × T, (∀ x ∈ p.2.1, x < W) →
      ∀ x ∈ (rs.foldl (Igush.back_step W) p).2.1, x < W := by
  induction rs with
  | nil => intro p h; exact h
  | cons r rs ih =>
    intro p h
    rw [List.foldl_cons]
    apply ih
    intro x hx
    simp only [Igush.back_step] at hx
    rcases List.mem_or_eq_of_mem_set hx with h1 | h2
    · exact h _ h1
    · subst h2
      exact wrap_one_lt _ _ hW

theorem invariant_push_back {T : Type} (a : Igush T) (h : a.Invariant) (x : T) :
    (a.push_back x).Invariant :=
  correct_splits_inv _ h.1 h.2.2.1

theorem invariant_pop_back {T : Type} (a : Igush T) (h : a.Invariant) :
    (a.pop_back).2.Invariant :=
  correct_splits_inv _ h.1 h.2.2.1

theorem invariant_clear {T : Type} (a : Igush T) (h : a.Invariant) :
    (a.clear).Invariant := by
  refine ⟨h.1, ?_, ?_, ?_⟩
  · simp [Igush.clear, Igush.len]
  · intro s hs
    simp only [Igush.clear] at hs
    rw [List.mem_singleton] at hs
    subst hs
    exact h.1
  · rfl

theorem invariant_truncate {T : Type} (a : Igush T) (h : a.Invariant) (l : Nat) :
    (a.truncate l).Invariant := by
  rw [Igush.truncate]
  generalize a.len - l = n
  induction n with
  | zero => exact h
  | succ n ih =>
    rw [List.range_succ, List.foldl_append, List.foldl_cons, List.foldl_nil]
    exact invariant_pop_back _ ih

theorem invariant_push_front {T : Type} (a : Igush T) (h : a.Invariant) (x : T) :
    (a.push_front x).Invariant := by
  rw [Igush.push_front]
  exact correct_splits_inv _ h.1
    (front_fold_mem a.row_width h.1 _ (a.backing, a.splits, x) h.2.2.1)

theorem invariant_pop_front {T : Type} (a : Igush T) (h : a.Invariant) :
    (a.pop_front).2.Invariant := by
  rw [Igush.pop_front]
  rcases a.last_row with _ | lr
  · exact h
  · dsimp only
    rcases vecRemove a.backing (lr * a.row_width) with _ | td
    · exact h
    · dsimp only
      exact correct_splits_inv _ h.1
        (back_fold_mem a.row_width h.1 _ (td.2, a.splits, td.1) h.2.2.1)

theorem invariant_insert {T : Type} (a : Igush T) (h : a.Invariant) (i : Nat) (x : T)
    (b : Igush T) (hb : a.insert i x = some b) : b.Invariant := by
  rw [Igush.insert] at hb
  split at hb
  · exact absurd hb (by simp)
  · rw [Option.some.injEq] at hb
    subst hb
    dsimp only
    split
    · exact correct_splits_inv _ h.1 h.2.2.1
    · apply correct_splits_inv
      · exact h.1
      · apply front_fold_mem a.row_width h.1
        dsimp only
        split
        · intro s hs
          rcases List.mem_or_eq_of_mem_set hs with h1 | h2
          · exact h.2.2.1 _ h1
          · subst h2
            exact wrap_neg_one_lt _ _ h.1 (invariant_split_lt a h _)
        · exact h.2.2.1

theorem invariant_remove {T : Type} (a : Igush T) (h : a.Invariant) (i : Nat) :
    (a.remove i).2.Invariant := by
  rw [Igush.remove]
  split
  · exact h
  · rcases a.last_row with _ | lr
    · exact h
    · dsimp only
      split
      · rcases vecRemove a.backing i with _ | ed
        · exact h
        · dsimp only
          exact correct_splits_inv _ h.1 h.2.2.1
      · rcases vecRemove a.backing (lr * a.row_width) with _ | td
        · exact h
        · dsimp only
          split
          · exact correct_splits_inv _ h.1
              (back_fold_mem a.row_width h.1 _ (td.2, a.splits, td.1) h.2.2.1)
          · apply correct_splits_inv
            · exact h.1
            · intro s hs
              rcases List.mem_or_eq_of_mem_set hs with h1 | h2
              · exact back_fold_mem a.row_width h.1 _ (td.2, a.splits, td.1) h.2.2.1 _ h1
              · subst h2
                exact wrap_one_lt _ _ h.1

theorem make_contiguous_splits_eq {T : Type} (a : Igush T) :
    (a.make_contiguous).splits = a.splits ∧
      (a.make_contiguous).row_width = a.row_width := by
  rw [Igush.make_contiguous]
  rcases a.last_row with _ | lr
  · exact ⟨rfl, rfl⟩
  · exact ⟨rfl, rfl⟩

theorem invariant_split_off {T : Type} (a : Igush T) (h : a.Invariant) (n : Nat)
    (s o : Igush T) (hso : a.split_off n = some (s, o)) : s.Invariant := by
  rw [Igush.split_off] at hso
  split at hso
  · exact absurd hso (by simp)
  · rw [Option.some.injEq, Prod.mk.injEq] at hso
    obtain ⟨hs, ho⟩ := hso
    subst hs
    have h1 := (make_contiguous_splits_eq a).1
    have h2 := (make_contiguous_splits_eq a).2
    apply correct_splits_inv
    · rw [h2]
      exact h.1
    · rw [h1, h2]
      exact h.2.2.1

theorem invariant_new {T : Type} (W : Nat) (hW : 0 < W) :
    (Igush.new W (T := T)).Invariant := by
  refine ⟨hW, ?_, ?_, ?_⟩
  · simp [Igush.new, Igush.len]
  · intro s hs
    simp only [Igush.new] at hs
    rw [List.mem_singleton] at hs
    subst hs
    exact hW
  · rfl

theorem built_invariant {T : Type} {W : Nat} {a : Igush T}
    (hb : Igush.Built W a) : a.Invariant := by
  induction hb with
  | base hW => exact invariant_new W hW
  | push_back_built x _ ih => exact invariant_push_back _ ih x
  | push_front_built x _ ih => exact invariant_push_front _ ih x
  | insert_built i x _ hins ih => exact invariant_insert _ ih i x _ hins

/-! ### Linearization: `Igush::make_contiguous` realises the logical sequence -/

theorem lin_step_length {T : Type} (W : Nat) (splits : List Nat) (b : List T) (i : Nat) :
    (Igush.lin_step W splits b i).length = b.length := by
  simp only [Igush.lin_step]
  split
  · rw [spliceRow, List.length_append, List.length_append, List.length_take,
      List.length_drop, length_make_contiguous, subSlice_length]
    omega
  · rfl

theorem lin_fold {T : Type} (W : Nat) (hW : 0 < W) (splits : List Nat) (b : List T) :
    ∀ n : Nat, (∀ r, r < n → r * W < b.length) →
      ((List.range n).foldl (Igush.lin_step W splits) b).length = b.length ∧
      ∀ j, ((List.range n).foldl (Igush.lin_step W splits) b)[j]? =
        if j < n * W then
          (if 0 < splits.getD (j / W) 0 then
            (util.make_contiguous
              (subSlice b ((j / W) * W) (min ((j / W) * W + W) b.length))
              (splits.getD (j / W) 0))[j % W]?
          else b[j]?)
        else b[j]? := by
  intro n
  induction n with
  | zero =>
    intro hn
    refine ⟨rfl, ?_⟩
    intro j
    rw [if_neg (by omega)]
    rfl
  | succ n ih =>
    intro hn
    obtain ⟨ihlen, ihval⟩ := ih (fun r hr => hn r (by omega))
    have hstart : n * W < b.length := hn n (by omega)
    have hexp : (n + 1) * W = n * W + W := by ring
    rw [List.range_succ, List.foldl_append, List.foldl_cons, List.foldl_nil]
    set bn := (List.range n).foldl (Igush.lin_step W splits) b with hbn
    have hrow_eq : subSlice bn (n * W) (min (n * W + W) b.length)
        = subSlice b (n * W) (min (n * W + W) b.length) := by
      apply List.ext_getElem?
      intro m
      rw [subSlice_getElem?, subSlice_getElem?]
      split
      · rw [ihval (n * W + m), if_neg (by omega)]
      · rfl
    have hstop1 : n * W ≤ min (n * W + W) b.length :=
      le_min (Nat.le_add_right _ _) (le_of_lt hstart)
    have hstop2 : min (n * W + W) b.length ≤ b.length := min_le_right _ _
    have hlen2 : (Igush.lin_step W splits bn n).length = b.length := by
      rw [lin_step_length, ihlen]
    refine ⟨hlen2, ?_⟩
    intro j
    simp only [Igush.lin_step]
    rw [ihlen]
    split
    case isTrue hpos =>
      have hmid : (util.make_contiguous
          (subSlice b (n * W) (min (n * W + W) b.length))
          (splits.getD n 0)).length = min (n * W + W) b.length - n * W := by
        rw [length_make_contiguous, subSlice_length]
        omega
      rw [hrow_eq, spliceRow_getElem? bn (n * W) (min (n * W + W) b.length) _
        hstop1 (by rw [ihlen]; exact hstop2) hmid]
      by_cases h1 : j < n * W
      · have hj1 : j < (n + 1) * W := by omega
        rw [if_pos h1, ihval j, if_pos h1, if_pos hj1]
      · rw [if_neg h1]
        by_cases h2 : j < min (n * W + W) b.length
        · have hjlt : j < (n + 1) * W := by omega
          have hd1 : n * W ≤ j := by omega
          have hdiv : j / W = n := Nat.div_eq_of_lt_le hd1 hjlt
          have hmod : j % W = j - n * W := by
            have hdm := Nat.div_add_mod' j W
            rw [hdiv] at hdm
            omega
          rw [if_pos h2, if_pos hjlt, hdiv, if_pos hpos, hmod]
        · rw [if_neg h2]
          by_cases h3 : j < (n + 1) * W
          · have hjge : b.length ≤ j := by omega
            have hd1 : n * W ≤ j := by omega
            have hdiv : j / W = n := Nat.div_eq_of_lt_le hd1 h3
            have hmod : j % W = j - n * W := by
              have hdm := Nat.div_add_mod' j W
              rw [hdiv] at hdm
              omega
            have hb1 : bn.length ≤ j := by rw [ihlen]; omega
            have hb2 : (util.make_contiguous
                (subSlice b (n * W) (min (n * W + W) b.length))
                (splits.getD n 0)).length ≤ j % W := by
              rw [hmid]
              omega
            rw [List.getElem?_eq_none hb1, if_pos h3, hdiv,
              if_pos hpos, List.getElem?_eq_none hb2]
          · have hj3 : ¬j < n * W := by omega
            rw [if_neg h3, ihval j, if_neg hj3]
    case isFalse hpos =>
      by_cases h1 : j < n * W
      · have hj1 : j < (n + 1) * W := by omega
        rw [ihval j, if_pos h1, if_pos hj1]
      · by_cases h2 : j < (n + 1) * W
        · have hd1 : n * W ≤ j := by omega
          have hdiv : j / W = n := Nat.div_eq_of_lt_le hd1 h2
          rw [ihval j, if_neg h1, if_pos h2, hdiv, if_neg hpos]
        · rw [ihval j, if_neg h1, if_neg h2]

theorem last_row_bounds {T : Type} (a : Igush T) (hW : 0 < a.row_width) (lr : Nat)
    (h : a.last_row = some lr) :
    lr * a.row_width < a.len ∧ a.len ≤ (lr + 1) * a.row_width := by
  rw [Igush.last_row] at h
  by_cases h0 : a.len = 0
  · rw [if_pos h0] at h
    exact absurd h (by simp)
  · rw [if_neg h0] at h
    dsimp only [util.div_rem] at h
    have hdm := Nat.div_add_mod' a.len a.row_width
    have hml : a.len % a.row_width < a.row_width := Nat.mod_lt _ hW
    by_cases hc : a.len % a.row_width = 0
    · rw [if_pos hc, Option.some.injEq] at h
      subst h
      have hq1 : 1 ≤ a.len / a.row_width := by
        rcases Nat.eq_zero_or_pos (a.len / a.row_width) with hq | hq
        · exfalso
          rw [hq, Nat.zero_mul, Nat.zero_add] at hdm
          omega
        · exact hq
      have e1 : (a.len / a.row_width - 1 + 1) * a.row_width
          = (a.len / a.row_width) * a.row_width := by
        rw [Nat.sub_add_cancel hq1]
      have e2 : (a.len / a.row_width - 1 + 1) * a.row_width
          = (a.len / a.row_width - 1) * a.row_width + a.row_width := by ring
      omega
    · rw [if_neg hc, Option.some.injEq] at h
      subst h
      have e1 : (a.len / a.row_width + 1) * a.row_width
          = (a.len / a.row_width) * a.row_width + a.row_width := by ring
      omega

theorem make_contiguous_get {T : Type} (a : Igush T) (h : a.Invariant) :
    (a.make_contiguous).backing.length = a.len ∧
      ∀ j, (a.make_contiguous).backing[j]? = a.get j := by
  have hW := h.1
  have hd : a.len = a.backing.length := rfl
  rw [Igush.make_contiguous]
  rcases hlr : a.last_row with _ | lr
  · have hlen0 : a.len = 0 := by
      by_contra h0
      rw [Igush.last_row, if_neg h0] at hlr
      dsimp only [util.div_rem] at hlr
      revert hlr
      split <;> simp
    dsimp only
    refine ⟨rfl, ?_⟩
    intro j
    rw [Igush.get, if_pos (le_trans (le_of_eq hlen0) (Nat.zero_le j))]
    exact List.getElem?_eq_none (by omega)
  · dsimp only
    obtain ⟨hb1, hb2⟩ := last_row_bounds a hW lr hlr
    have hn : ∀ r, r < lr + 1 → r * a.row_width < a.backing.length := by
      intro r hr
      have hm : r * a.row_width ≤ lr * a.row_width :=
        Nat.mul_le_mul_right _ (by omega)
      omega
    obtain ⟨hflen, hfval⟩ := lin_fold a.row_width hW a.splits a.backing (lr + 1) hn
    refine ⟨hflen, ?_⟩
    intro j
    rw [hfval j]
    have hrW : j / a.row_width * a.row_width ≤ j := Nat.div_mul_le_self j _
    have hdm := Nat.div_add_mod' j a.row_width
    have hml : j % a.row_width < a.row_width := Nat.mod_lt _ hW
    by_cases hj : j < a.len
    · have hjr : j < (lr + 1) * a.row_width := by omega
      have hnotle : ¬a.len ≤ j := by omega
      rw [if_pos hjr, Igush.get, if_neg hnotle, real_index_eq]
      by_cases hsp : 0 < a.splits.getD (j / a.row_width) 0
      · rw [if_pos hsp]
        have hfull : j / a.row_width * a.row_width + a.row_width ≤ a.len := by
          by_contra hnf
          have he : (j / a.row_width + 1) * a.row_width
              = j / a.row_width * a.row_width + a.row_width := by ring
          have hq : a.len / a.row_width = j / a.row_width :=
            Nat.div_eq_of_lt_le (by omega) (by omega)
          have h0 := invariant_getD_last a h
          rw [hq] at h0
          omega
        have hstop : min (j / a.row_width * a.row_width + a.row_width)
            a.backing.length = j / a.row_width * a.row_width + a.row_width := by
          omega
        rw [hstop]
        have hsub : (subSlice a.backing (j / a.row_width * a.row_width)
            (j / a.row_width * a.row_width + a.row_width)).length = a.row_width := by
          rw [subSlice_length]
          omega
        have hsplt := invariant_split_lt a h (j / a.row_width)
        rw [make_contiguous_getElem? _ _ _ (by rw [hsub]; omega) (by rw [hsub]; omega)]
        rw [hsub, subSlice_getElem?]
        have hcond : (a.splits.getD (j / a.row_width) 0 + j % a.row_width) % a.row_width
            < j / a.row_width * a.row_width + a.row_width
              - j / a.row_width * a.row_width := by
          have := Nat.mod_lt (a.splits.getD (j / a.row_width) 0 + j % a.row_width) hW
          omega
        rw [if_pos hcond]
      · rw [if_neg hsp]
        have hsp0 : a.splits.getD (j / a.row_width) 0 = 0 := by omega
        rw [hsp0, Nat.zero_add, Nat.mod_eq_of_lt hml]
        congr 1
        omega
    · have hge : a.len ≤ j := by omega
      rw [Igush.get, if_pos hge]
      by_cases h3 : j < (lr + 1) * a.row_width
      · rw [if_pos h3]
        by_cases hsp : 0 < a.splits.getD (j / a.row_width) 0
        · rw [if_pos hsp]
          apply List.getElem?_eq_none
          rw [length_make_contiguous, subSlice_length]
          omega
        · rw [if_neg hsp]
          exact List.getElem?_eq_none (by omega)
      · rw [if_neg h3]
        exact List.getElem?_eq_none (by omega)

/-! ### Import from and export to a flat sequence -/

theorem get_fromVec {T : Type} (v : List T) (i : Nat) :
    (Igush.fromVec v).get i = v[i]? := by
  have hW : 0 < max v.length.sqrt DEFAULT_WIDTH :=
    lt_of_lt_of_le (by decide) (le_max_right _ _)
  simp only [Igush.fromVec, Igush.get, Igush.len, real_index_eq]
  by_cases hi : v.length ≤ i
  · rw [if_pos hi]
    exact (List.getElem?_eq_none hi).symm
  · rw [if_neg hi]
    have hz : (List.replicate (v.length / max v.length.sqrt DEFAULT_WIDTH + 1) 0).getD
        (i / max v.length.sqrt DEFAULT_WIDTH) 0 = 0 := by
      rw [List.getD_eq_getElem?_getD, List.getElem?_replicate]
      split <;> rfl
    rw [hz, Nat.zero_add,
      Nat.mod_eq_of_lt (Nat.mod_lt _ hW)]
    congr 1
    exact Nat.div_add_mod' i _

theorem lin_fold_replicate_zero {T : Type} (W n : Nat) (rs : List Nat) :
    ∀ b : List T, rs.foldl (Igush.lin_step W (List.replicate n 0)) b = b := by
  induction rs with
  | nil => intro b; rfl
  | cons r rs ih =>
    intro b
    rw [List.foldl_cons]
    have hz : (List.replicate n (0 : Nat)).getD r 0 = 0 := by
      rw [List.getD_eq_getElem?_getD, List.getElem?_replicate]
      split <;> rfl
    have hstep : Igush.lin_step W (List.replicate n 0) b r = b := by
      simp only [Igush.lin_step]
      rw [hz, if_neg (lt_irrefl 0)]
    rw [hstep]
    exact ih b

theorem intoVec_fromVec {T : Type} (v : List T) :
    Igush.intoVec (Igush.fromVec v) = v := by
  rw [Igush.intoVec, Igush.make_contiguous]
  rcases (Igush.fromVec v).last_row with _ | lr
  · rfl
  · dsimp only [Igush.fromVec]
    exact lin_fold_replicate_zero _ _ _ v

/-! ### Boundary behaviour support -/

theorem splits_eq_singleton_of_empty {T : Type} (a : Igush T) (h : a.Invariant)
    (h0 : a.len = 0) : a.splits = [0] := by
  obtain ⟨hW, hlen, hmem, hlast⟩ := h
  rw [h0, Nat.zero_div] at hlen
  rcases hs : a.splits with _ | ⟨x, xs⟩
  · rw [hs] at hlen
    simp at hlen
  · rcases xs with _ | ⟨y, ys⟩
    · rw [hs] at hlast
      simp only [List.getLast?_singleton, Option.some.injEq] at hlast
      rw [hlast]
    · rw [hs] at hlen
      simp at hlen

theorem correct_splits_empty {T : Type} (W : Nat) :
    Igush.correct_splits (⟨[], [0], W⟩ : Igush T) = ⟨[], [0], W⟩ := by
  simp [Igush.correct_splits, Igush.resize_splits, Igush.len]

theorem pop_back_empty {T : Type} (a : Igush T) (h : a.Invariant) (h0 : a.len = 0) :
    a.pop_back = (none, a) := by
  have hsp := splits_eq_singleton_of_empty a h h0
  have hb : a.backing = [] := List.length_eq_zero.1 h0
  have ha : a = ⟨[], [0], a.row_width⟩ := by
    cases a
    simp only [Igush.mk.injEq]
    simp only at hb hsp
    exact ⟨hb, hsp, trivial⟩
  rw [ha, Igush.pop_back]
  rw [List.dropLast_nil, correct_splits_empty]
  rfl

theorem pop_front_empty {T : Type} (a : Igush T) (h0 : a.len = 0) :
    a.pop_front = (none, a) := by
  rw [Igush.pop_front, Igush.last_row, if_pos h0]

theorem remove_oob {T : Type} (a : Igush T) (i : Nat) (hi : a.len ≤ i) :
    a.remove i = (none, a) := by
  rw [Igush.remove, if_pos hi]

/-! ### `insert` at the end is `push_back` -/

theorem insert_len_eq_push_back {T : Type} (a : Igush T) (x : T) :
    a.insert a.len x = some (a.push_back x) := by
  rw [Igush.insert, if_neg (lt_irrefl a.len)]
  congr 1
  dsimp only [util.div_rem]
  have hbr : a.len / a.row_width = a.back_row := rfl
  rw [if_pos hbr, Igush.push_back]
  congr 1
  dsimp only [Igush.len]
  rw [vecInsert_at_length]

/-! ### The claims -/

/-- C1: the differential-equivalence claim fails on the code.  On the
reachable state `bugTrace` (row width 2), whose logical sequence — as read
through the container's own `get` — is `[2, 0]`, a reference deque would
pop `0` from the back and be left holding `[2]`; the code's `pop_back`
instead returns `Some 2` and leaves the container holding `[0]`. -/
theorem claim_C1_pop_back_diverges :
    Igush.logicalSeq bugTrace = [2, 0] ∧
    (Igush.pop_back bugTrace).1 = some 2 ∧
    Igush.logicalSeq (Igush.pop_back bugTrace).2 = [0] ∧
    ([2, 0] : List Nat).getLast? = some 0 ∧ ([2, 0] : List Nat).dropLast = [2] := by
  have b1 : (Igush.new 2 (T := Nat)).push_back 0 = ⟨[0], [0], 2⟩ := by decide
  have b2 : (⟨[0], [0], 2⟩ : Igush Nat).push_back 1 = ⟨[0, 1], [0, 0], 2⟩ := by decide
  have b3 : (⟨[0, 1], [0, 0], 2⟩ : Igush Nat).push_front 2
      = ⟨[0, 2, 1], [1, 0], 2⟩ := by decide
  have b4 : (Igush.pop_back (⟨[0, 2, 1], [1, 0], 2⟩ : Igush Nat)).2
      = ⟨[0, 2], [1, 0], 2⟩ := by decide
  have hB : bugTrace = ⟨[0, 2], [1, 0], 2⟩ := by
    rw [bugTrace, b1, b2, b3, b4]
  rw [hB]
  decide

/-- C9: `back()` does not return `get(len - 1)` on every reachable state:
on `bugTrace` the logical sequence is `[2, 0]`, `back` reads the physically
last element `2`, but the logically last element is `0`.  (`front` is
literally `get 0`, so that half holds by definition.) -/
theorem claim_C9_back_diverges :
    Igush.logicalSeq bugTrace = [2, 0] ∧
    bugTrace.back = some 2 ∧
    bugTrace.get (bugTrace.len - 1) = some 0 ∧
    bugTrace.front = bugTrace.get 0 := by
  have b1 : (Igush.new 2 (T := Nat)).push_back 0 = ⟨[0], [0], 2⟩ := by decide
  have b2 : (⟨[0], [0], 2⟩ : Igush Nat).push_back 1 = ⟨[0, 1], [0, 0], 2⟩ := by decide
  have b3 : (⟨[0, 1], [0, 0], 2⟩ : Igush Nat).push_front 2
      = ⟨[0, 2, 1], [1, 0], 2⟩ := by decide
  have b4 : (Igush.pop_back (⟨[0, 2, 1], [1, 0], 2⟩ : Igush Nat)).2
      = ⟨[0, 2], [1, 0], 2⟩ := by decide
  have hB : bugTrace = ⟨[0, 2], [1, 0], 2⟩ := by
    rw [bugTrace, b1, b2, b3, b4]
  rw [hB]
  decide

/-- C8: with row width 5, pushing back 0,1,2,3 and then inserting
111,110,…,102 at index 2 (all ten inserts succeed, yielding the concrete
state below) produces the logical sequence 0,1,102,…,111,2,3 of length 14. -/
theorem claim_C8_insert_scenario :
    ([111, 110, 109, 108, 107, 106, 105, 104, 103, 102].foldl
        (fun s v => Option.bind s (fun t => t.insert 2 v))
        (some (((((Igush.new 5 (T := Nat)).push_back 0).push_back 1).push_back 2).push_back 3)))
      = some (⟨[0, 1, 102, 103, 104, 109, 105, 106, 107, 108, 110, 111, 2, 3],
          [0, 1, 0], 5⟩ : Igush Nat) ∧
    Igush.logicalSeq (⟨[0, 1, 102, 103, 104, 109, 105, 106, 107, 108, 110, 111, 2, 3],
        [0, 1, 0], 5⟩ : Igush Nat)
      = [0, 1, 102, 103, 104, 105, 106, 107, 108, 109, 110, 111, 2, 3] ∧
    (⟨[0, 1, 102, 103, 104, 109, 105, 106, 107, 108, 110, 111, 2, 3],
        [0, 1, 0], 5⟩ : Igush Nat).len = 14 := by
  have q1 : (Igush.new 5 (T := Nat)).push_back 0 = ⟨[0], [0], 5⟩ := by decide
  have q2 : (⟨[0], [0], 5⟩ : Igush Nat).push_back 1 = ⟨[0, 1], [0], 5⟩ := by decide
  have q3 : (⟨[0, 1], [0], 5⟩ : Igush Nat).push_back 2 = ⟨[0, 1, 2], [0], 5⟩ := by decide
  have q4 : (⟨[0, 1, 2], [0], 5⟩ : Igush Nat).push_back 3
      = ⟨[0, 1, 2, 3], [0], 5⟩ := by decide
  have s1 : (⟨[0, 1, 2, 3], [0], 5⟩ : Igush Nat).insert 2 111
      = some ⟨[0, 1, 111, 2, 3], [0, 0], 5⟩ := by decide
  have s2 : (⟨[0, 1, 111, 2, 3], [0, 0], 5⟩ : Igush Nat).insert 2 110
      = some ⟨[0, 1, 110, 111, 2, 3], [0, 0], 5⟩ := by decide
  have s3 : (⟨[0, 1, 110, 111, 2, 3], [0, 0], 5⟩ : Igush Nat).insert 2 109
      = some ⟨[0, 1, 109, 110, 111, 2, 3], [0, 0], 5⟩ := by decide
  have s4 : (⟨[0, 1, 109, 110, 111, 2, 3], [0, 0], 5⟩ : Igush Nat).insert 2 108
      = some ⟨[0, 1, 108, 109, 110, 111, 2, 3], [0, 0], 5⟩ := by decide
  have s5 : (⟨[0, 1, 108, 109, 110, 111, 2, 3], [0, 0], 5⟩ : Igush Nat).insert 2 107
      = some ⟨[0, 1, 107, 108, 109, 110, 111, 2, 3], [0, 0], 5⟩ := by decide
  have s6 : (⟨[0, 1, 107, 108, 109, 110, 111, 2, 3], [0, 0], 5⟩ : Igush Nat).insert 2 106
      = some ⟨[0, 1, 106, 107, 108, 109, 110, 111, 2, 3], [0, 0, 0], 5⟩ := by decide
  have s7 : (⟨[0, 1, 106, 107, 108, 109, 110, 111, 2, 3], [0, 0, 0], 5⟩ : Igush Nat).insert 2 105
      = some ⟨[0, 1, 105, 106, 107, 109, 110, 111, 2, 108, 3], [0, 4, 0], 5⟩ := by decide
  have s8 : (⟨[0, 1, 105, 106, 107, 109, 110, 111, 2, 108, 3],
        [0, 4, 0], 5⟩ : Igush Nat).insert 2 104
      = some ⟨[0, 1, 104, 105, 106, 109, 110, 111, 107, 108, 2, 3], [0, 3, 0], 5⟩ := by
    decide
  have s9 : (⟨[0, 1, 104, 105, 106, 109, 110, 111, 107, 108, 2, 3],
        [0, 3, 0], 5⟩ : Igush Nat).insert 2 103
      = some ⟨[0, 1, 103, 104, 105, 109, 110, 106, 107, 108, 111, 2, 3], [0, 2, 0], 5⟩ := by
    decide
  have s10 : (⟨[0, 1, 103, 104, 105, 109, 110, 106, 107, 108, 111, 2, 3],
        [0, 2, 0], 5⟩ : Igush Nat).insert 2 102
      = some ⟨[0, 1, 102, 103, 104, 109, 105, 106, 107, 108, 110, 111, 2, 3],
          [0, 1, 0], 5⟩ := by
    decide
  refine ⟨?_, by decide, rfl⟩
  rw [q1, q2, q3, q4]
  simp only [List.foldl_cons, List.foldl_nil, Option.some_bind]
  rw [s1]
  simp only [Option.some_bind]
  rw [s2]
  simp only [Option.some_bind]
  rw [s3]
  simp only [Option.some_bind]
  rw [s4]
  simp only [Option.some_bind]
  rw [s5]
  simp only [Option.some_bind]
  rw [s6]
  simp only [Option.some_bind]
  rw [s7]
  simp only [Option.some_bind]
  rw [s8]
  simp only [Option.some_bind]
  rw [s9]
  simp only [Option.some_bind]
  rw [s10]

/-- C6 (counterexample): `wrap_add` does not compute `(split + delta) mod W`
for every negative delta: at `W = 5`, `split = 0`, `delta = -6` the `usize`
subtraction `(split + length) - other_abs` underflows (the `Int` model goes
negative), whereas `(0 + (-6)) mod 5 = 4`. -/
theorem claim_C6_counterexample :
    ¬(0 ≤ util.wrap_add 5 0 (-6) ∧ util.wrap_add 5 0 (-6) < 5 ∧
      util.wrap_add 5 0 (-6) = ((0 : Int) + (-6)) % 5) := by
  decide

/-- C6 (amended): for `W > 0`, `split < W`, and every delta with
`-(split + W) ≤ delta` (no underflow), `wrap_add W split delta` equals
`(split + delta) mod W` and lies in `[0, W)`. -/
theorem claim_C6_amended (W split : Nat) (delta : Int) (hW : 0 < W) (hs : split < W)
    (hd : -((split : Int) + (W : Int)) ≤ delta) :
    util.wrap_add W split delta = ((split : Int) + delta) % (W : Int) ∧
    0 ≤ util.wrap_add W split delta ∧ util.wrap_add W split delta < (W : Int) := by
  by_cases hneg : delta < 0
  · simp only [util.wrap_add]
    rw [if_pos hneg]
    have hk : (delta.natAbs : Int) = -delta :=
      Int.ofNat_natAbs_of_nonpos (le_of_lt hneg)
    by_cases hcase : split < delta.natAbs
    · rw [if_pos hcase]
      have h1 : (split : Int) + delta < 0 := by omega
      have h2 : 0 ≤ (split : Int) + delta + W := by omega
      have hmod : ((split : Int) + delta) % (W : Int) = (split : Int) + delta + W := by
        have e : ((split : Int) + delta + W) = ((split : Int) + delta) + (W : Int) * 1 := by
          ring
        calc ((split : Int) + delta) % (W : Int)
            = ((split : Int) + delta + W) % (W : Int) := by
              rw [e, Int.add_mul_emod_self_left]
          _ = (split : Int) + delta + W := Int.emod_eq_of_lt h2 (by omega)
      refine ⟨by omega, by omega, by omega⟩
    · rw [if_neg hcase]
      have h1 : 0 ≤ (split : Int) + delta := by omega
      have hmod : ((split : Int) + delta) % (W : Int) = (split : Int) + delta :=
        Int.emod_eq_of_lt h1 (by omega)
      refine ⟨by omega, by omega, by omega⟩
  · have h0 : 0 ≤ delta := by omega
    obtain ⟨c, rfl⟩ := Int.eq_ofNat_of_zero_le h0
    rw [wrap_add_ofNat]
    refine ⟨?_, ?_, ?_⟩
    · push_cast
      rfl
    · exact Int.natCast_nonneg _
    · exact_mod_cast Nat.mod_lt (split + c) hW

/-- C6 (witness for the amended claim). -/
theorem claim_C6_witness :
    util.wrap_add 5 2 (-3) = ((2 : Int) + (-3)) % (5 : Int) ∧
    0 ≤ util.wrap_add 5 2 (-3) ∧ util.wrap_add 5 2 (-3) < ((5 : Nat) : Int) :=
  claim_C6_amended 5 2 (-3) (by decide) (by decide) (by decide)

/-- C7: for a slice with `0 < split < len`, `util::make_contiguous`
left-aligns the row: the element at position `c` afterwards is the element
that was at `(split + c) mod len` before. -/
theorem claim_C7_linearize {α : Type _} (slice : List α) (split : Nat)
    (h1 : 0 < split) (h2 : split < slice.length) (c : Nat) (hc : c < slice.length) :
    (util.make_contiguous slice split)[c]? = slice[(split + c) % slice.length]? :=
  make_contiguous_getElem? slice split c (le_of_lt h2) hc

/-- C7 (witness). -/
theorem claim_C7_witness :
    (util.make_contiguous [10, 20, 30] 1)[0]? = [10, 20, 30][(1 + 0) % 3]? :=
  claim_C7_linearize [10, 20, 30] 1 (by decide) (by decide) 0 (by decide)

/-- C4: inserting at index = length succeeds and produces exactly the
`push_back` state (same backing, splits and width); inserting at any index
greater than the length is rejected (`none` models the panic) with no
resulting state. -/
theorem claim_C4_insert_at_len {T : Type} (a : Igush T) (x : T) (hW : 0 < a.row_width) :
    a.insert a.len x = some (a.push_back x) ∧
    ∀ i : Nat, a.len < i → a.insert i x = none := by
  refine ⟨insert_len_eq_push_back a x, ?_⟩
  intro i hi
  rw [Igush.insert, if_pos hi]

/-- C4 (witness). -/
theorem claim_C4_witness :
    (⟨[5], [0], 3⟩ : Igush Nat).insert 1 9
      = some ((⟨[5], [0], 3⟩ : Igush Nat).push_back 9) ∧
    (⟨[5], [0], 3⟩ : Igush Nat).insert 2 9 = none := by
  have h := claim_C4_insert_at_len (⟨[5], [0], 3⟩ : Igush Nat) 9 (by decide)
  exact ⟨h.1, h.2 2 (by decide)⟩

/-- C3: under the invariant, `get i` is `none` exactly when `i ≥ len`
(in particular always on an empty container); `remove` on an out-of-range
index and `pop_front`/`pop_back` on an empty container return `none` and
leave the container unchanged. -/
theorem claim_C3_expected_absence {T : Type} (a : Igush T) (i : Nat) (h : a.Invariant) :
    (a.get i = none ↔ a.len ≤ i) ∧
    (a.len ≤ i → a.remove i = (none, a)) ∧
    (a.len = 0 → a.pop_front = (none, a) ∧ a.pop_back = (none, a)) := by
  refine ⟨?_, fun hle => remove_oob a i hle,
    fun h0 => ⟨pop_front_empty a h0, pop_back_empty a h h0⟩⟩
  constructor
  · intro hn
    by_contra hlt
    obtain ⟨x, hx⟩ := get_isSome a h i (by omega)
    rw [hx] at hn
    exact absurd hn (by simp)
  · intro hle
    rw [Igush.get, if_pos hle]

/-- C3 (witness). -/
theorem claim_C3_witness :
    ((⟨[], [0], 1⟩ : Igush Nat).get 0 = none ↔ (⟨[], [0], 1⟩ : Igush Nat).len ≤ 0) ∧
    (⟨[], [0], 1⟩ : Igush Nat).pop_back = (none, (⟨[], [0], 1⟩ : Igush Nat)) := by
  have h := claim_C3_expected_absence (⟨[], [0], 1⟩ : Igush Nat) 0 (by decide)
  exact ⟨h.1, (h.2.2 rfl).2⟩

/-- C2: every mutating public operation, applied to a state satisfying the
container invariant (positive width, `⌊len/W⌋ + 1` split entries, all in
`[0, W)`, last entry 0), re-establishes that invariant: `push_front`,
`push_back`, `pop_front`, `pop_back`, `insert` (when it succeeds),
`remove`, `truncate`, `clear`, and `split_off` (when it succeeds, for the
container operated on). -/
theorem claim_C2_invariant_preservation {T : Type} (a : Igush T) (h : a.Invariant) :
    (∀ x : T, (a.push_front x).Invariant) ∧
    (∀ x : T, (a.push_back x).Invariant) ∧
    (a.pop_front).2.Invariant ∧
    (a.pop_back).2.Invariant ∧
    (∀ (i : Nat) (x : T) (b : Igush T), a.insert i x = some b → b.Invariant) ∧
    (∀ i : Nat, (a.remove i).2.Invariant) ∧
    (∀ l : Nat, (a.truncate l).Invariant) ∧
    (a.clear).Invariant ∧
    (∀ (n : Nat) (s o : Igush T), a.split_off n = some (s, o) → s.Invariant) :=
  ⟨fun x => invariant_push_front a h x,
   fun x => invariant_push_back a h x,
   invariant_pop_front a h,
   invariant_pop_back a h,
   fun i x b hb => invariant_insert a h i x b hb,
   fun i => invariant_remove a h i,
   fun l => invariant_truncate a h l,
   invariant_clear a h,
   fun n s o hso => invariant_split_off a h n s o hso⟩

/-- C2 (witness). -/
theorem claim_C2_witness :
    ((⟨[0, 1], [0, 0], 2⟩ : Igush Nat).push_front 7).Invariant ∧
    ((⟨[0, 1], [0, 0], 2⟩ : Igush Nat).pop_back).2.Invariant ∧
    ((⟨[0, 1], [0, 0], 2⟩ : Igush Nat).clear).Invariant := by
  have h := claim_C2_invariant_preservation (⟨[0, 1], [0, 0], 2⟩ : Igush Nat) (by decide)
  exact ⟨h.1 7, h.2.2.2.1, h.2.2.2.2.2.2.2.1⟩

/-- C5: for a container built by pushes and in-range inserts, exporting to
a flat sequence (`Into<Vec>`) and re-importing (`From<Vec>`) yields a
container of the same length agreeing with the original on every indexed
read; and export is idempotent: exporting the re-imported container gives
the same flat sequence. -/
theorem claim_C5_roundtrip {T : Type} (W : Nat) (a : Igush T) (hb : Igush.Built W a) :
    (Igush.fromVec a.intoVec).len = a.len ∧
    (∀ i : Nat, (Igush.fromVec a.intoVec).get i = a.get i) ∧
    Igush.intoVec (Igush.fromVec a.intoVec) = a.intoVec := by
  have h := built_invariant hb
  obtain ⟨hlen, hval⟩ := make_contiguous_get a h
  refine ⟨hlen, ?_, intoVec_fromVec _⟩
  intro i
  rw [get_fromVec]
  exact hval i

/-- C5 (witness). -/
theorem claim_C5_witness :
    (Igush.fromVec (Igush.intoVec ((Igush.new 2 (T := Nat)).push_front 3))).len
      = ((Igush.new 2 (T := Nat)).push_front 3).len ∧
    (Igush.fromVec (Igush.intoVec ((Igush.new 2 (T := Nat)).push_front 3))).get 0
      = ((Igush.new 2 (T := Nat)).push_front 3).get 0 := by
  have h := claim_C5_roundtrip 2 ((Igush.new 2 (T := Nat)).push_front 3)
    (Igush.Built.push_front_built 3 (Igush.Built.base (by decide)))
  exact ⟨h.1, h.2.1 0⟩

/-- C10: for in-range indices `i`, `j` (possibly equal) on an invariant
state, `swap i j` succeeds and exchanges the logical elements at `i` and
`j`, leaving the length, the row width, every split marker, and every
other logical read unchanged. -/
theorem claim_C10_swap {T : Type} (a b : Igush T) (i j : Nat) (h : a.Invariant)
    (hi : i < a.len) (hj : j < a.len) (hb : a.swap i j = some b) :
    b.len = a.len ∧ b.row_width = a.row_width ∧ b.splits = a.splits ∧
    b.get i = a.get j ∧ b.get j = a.get i ∧
    (∀ k : Nat, k ≠ i → k ≠ j → b.get k = a.get k) := by
  rw [Igush.swap, if_pos ⟨hi, hj⟩, Option.some.injEq] at hb
  subst hb
  have hd : a.len = a.backing.length := rfl
  have hri : a.real_index i < a.backing.length := real_index_lt_len a h i hi
  have hrj : a.real_index j < a.backing.length := real_index_lt_len a h j hj
  have e1 : a.backing[a.real_index i]? = some (a.backing.get ⟨a.real_index i, hri⟩) :=
    List.getElem?_eq_getElem hri
  have e2 : a.backing[a.real_index j]? = some (a.backing.get ⟨a.real_index j, hrj⟩) :=
    List.getElem?_eq_getElem hrj
  have hsw : vecSwap a.backing (a.real_index i) (a.real_index j)
      = (a.backing.set (a.real_index i) (a.backing.get ⟨a.real_index j, hrj⟩)).set
          (a.real_index j) (a.backing.get ⟨a.real_index i, hri⟩) := by
    rw [vecSwap, e1, e2]
  have hlen' : (vecSwap a.backing (a.real_index i) (a.real_index j)).length
      = a.backing.length := by
    rw [hsw, List.length_set, List.length_set]
  have hgetv : ∀ m : Nat,
      (vecSwap a.backing (a.real_index i) (a.real_index j))[m]? =
        if m = a.real_index j then some (a.backing.get ⟨a.real_index i, hri⟩)
        else if m = a.real_index i then some (a.backing.get ⟨a.real_index j, hrj⟩)
        else a.backing[m]? := by
    intro m
    rw [hsw, List.getElem?_set, List.length_set]
    by_cases h1 : m = a.real_index j
    · rw [if_pos h1.symm, if_pos hrj, if_pos h1]
    · rw [if_neg (fun hh : a.real_index j = m => h1 hh.symm), if_neg h1,
        List.getElem?_set]
      by_cases h2 : m = a.real_index i
      · rw [if_pos h2.symm, if_pos hri, if_pos h2]
      · rw [if_neg (fun hh : a.real_index i = m => h2 hh.symm), if_neg h2]
  have hreal : ∀ k : Nat,
      (Igush.mk (vecSwap a.backing (a.real_index i) (a.real_index j))
        a.splits a.row_width).real_index k = a.real_index k := fun _ => rfl
  have hlen2 : (Igush.mk (vecSwap a.backing (a.real_index i) (a.real_index j))
      a.splits a.row_width).len = a.len := hlen'
  refine ⟨hlen2, rfl, rfl, ?_, ?_, ?_⟩
  · rw [Igush.get, Igush.get, if_neg (by rw [hlen2]; omega), if_neg (by omega),
      hreal i, hgetv (a.real_index i)]
    by_cases hij : i = j
    · subst hij
      rw [if_pos rfl]
      exact e1.symm
    · have hne : a.real_index i ≠ a.real_index j := fun he =>
        hij (real_index_inj a h i j hi hj he)
      rw [if_neg hne, if_pos rfl]
      exact e2.symm
  · rw [Igush.get, Igush.get, if_neg (by rw [hlen2]; omega), if_neg (by omega),
      hreal j, hgetv (a.real_index j), if_pos rfl]
    exact e1.symm
  · intro k hki hkj
    by_cases hk : k < a.len
    · have hrk : a.real_index k < a.backing.length := real_index_lt_len a h k hk
      have hnki : a.real_index k ≠ a.real_index i := fun he =>
        hki (real_index_inj a h k i hk hi he)
      have hnkj : a.real_index k ≠ a.real_index j := fun he =>
        hkj (real_index_inj a h k j hk hj he)
      rw [Igush.get, Igush.get, if_neg (by rw [hlen2]; omega), if_neg (by omega),
        hreal k, hgetv (a.real_index k), if_neg hnkj, if_neg hnki]
    · rw [Igush.get, Igush.get, if_pos (by rw [hlen2]; omega), if_pos (by omega)]

/-- C10 (witness). -/
theorem claim_C10_witness :
    ((⟨[4, 5, 6], [0, 0], 2⟩ : Igush Nat).swap 0 2
      = some ⟨[6, 5, 4], [0, 0], 2⟩) ∧
    (⟨[6, 5, 4], [0, 0], 2⟩ : Igush Nat).get 0 = (⟨[4, 5, 6], [0, 0], 2⟩ : Igush Nat).get 2 ∧
    (⟨[6, 5, 4], [0, 0], 2⟩ : Igush Nat).get 1 = (⟨[4, 5, 6], [0, 0], 2⟩ : Igush Nat).get 1 := by
  have hs : (⟨[4, 5, 6], [0, 0], 2⟩ : Igush Nat).swap 0 2
      = some ⟨[6, 5, 4], [0, 0], 2⟩ := by decide
  have h := claim_C10_swap (⟨[4, 5, 6], [0, 0], 2⟩ : Igush Nat) ⟨[6, 5, 4], [0, 0], 2⟩ 0 2
    (by decide) (by decide) (by decide) hs
  exact ⟨hs, h.2.2.2.1, h.2.2.2.2.2 1 (by decide) (by decide)⟩
